import Mathlib

/-!
Shallow embedding of the `pranjal134-alt/ai-agent` repository
(`agent.py`, `po.py`, `p.py`): a pandas EDA script over a customer CSV,
plus a small toy combat class.

Numeric cell values are modelled as `Option ℚ` (a `none` is pandas
NaN / a missing value; `ℚ` stands for exact float arithmetic).
Timestamps are modelled as integer time units with 86400 units per day.
Randomness in `Po.attack` is modelled by passing the sampled value as an
explicit argument, constrained by the range of `random.randint`.
-/

namespace Agent

/-! ## Column-name normalization (agent.py line 32)

`df.columns.str.strip().str.lower().str.replace(" ", "_")
   .str.replace(r"[^a-z0-9_]", "", regex=True)`

Characters are handled by code point; ASCII case mapping is used
(code points 65-90 map to 97-122), spaces are code point 32,
the underscore is 95. -/

/-- Keep exactly the characters matching `[a-z0-9_]`
(code points 97-122, 48-57, 95). -/
def keepChar (c : Char) : Bool :=
  (97 ≤ c.toNat && c.toNat ≤ 122) || (48 ≤ c.toNat && c.toNat ≤ 57) || c.toNat == 95

/-- Lowercase one character (`str.lower`, ASCII case mapping). -/
def lowerChar (c : Char) : Char :=
  if 65 ≤ c.toNat ∧ c.toNat ≤ 90 then Char.ofNat (c.toNat + 32) else c

/-- Replace a space (code point 32) with an underscore (code point 95):
`str.replace(" ", "_")`. -/
def spaceToUnderscore (c : Char) : Char :=
  if c.toNat = 32 then Char.ofNat 95 else c

/-- Strip whitespace from both ends (`str.strip`). -/
def trimChars (l : List Char) : List Char :=
  ((l.dropWhile Char.isWhitespace).reverse.dropWhile Char.isWhitespace).reverse

/-- The whole label pipeline on a list of characters:
strip, lowercase, spaces to underscores, drop anything outside `[a-z0-9_]`. -/
def normalizeChars (l : List Char) : List Char :=
  (((trimChars l).map lowerChar).map spaceToUnderscore).filter keepChar

/-- Normalization of one column label. -/
def normalizeLabel (s : String) : String :=
  String.mk (normalizeChars s.toList)

/-! ## Loader (agent.py lines 21-26)

`pd.read_csv` either yields a table or raises `FileNotFoundError`;
the handler prints two lines and calls `exit(1)`.  The run is modelled
as a function from the file's presence (`none` = file missing) to either
the fatal exit (messages printed and exit code) or the loaded table's
column set. -/

/-- The configured input path (`CSV_FILE`). -/
def csvFile : String := "customers.csv"

/-- First line printed by the `FileNotFoundError` handler. -/
def notFoundMsg : String := "Error: File 'customers.csv' not found."

/-- Second line printed by the `FileNotFoundError` handler. -/
def expectedColumnsMsg : String :=
  "Example expected columns: CustomerID, Name, Age, Gender, City, JoinDate, AnnualSpend, Orders, Category"

/-- A fatal termination: the lines printed and the process exit code. -/
structure ScriptExit where
  messages : List String
  code : Nat
  deriving DecidableEq, Repr

/-! ## Feature engineering, presence level (agent.py lines 55-77)

Which derived columns get added only depends on which column names are
present; each guard is translated directly. -/

/-- Column additions of the feature-engineering block, on the table's
column-name list (in the order the script executes the three guards). -/
def featureCols (cols : List String) : List String :=
  let c1 := if "joindate" ∈ cols ∨ "join_date" ∈ cols ∨ "signup_date" ∈ cols
    then cols ++ ["days_as_customer"] else cols
  let c2 := if "orders" ∈ c1 ∧ "annual_spend" ∈ c1
    then c1 ++ ["monetary", "frequency", "rfm_score"] else c1
  if "age" ∈ c2 then c2 ++ ["age_group"] else c2

/-- One run of the script, down to the feature-engineering stage:
`none` input means the file at `csvFile` is missing, in which case the
script prints and exits with code 1 before any table exists; otherwise
the column labels are normalized and the derived columns added. -/
def runScript (input : Option (List String)) : Except ScriptExit (List String) :=
  match input with
  | none => Except.error ⟨[notFoundMsg, expectedColumnsMsg], 1⟩
  | some rawCols => Except.ok (featureCols (rawCols.map normalizeLabel))

/-- Whether a run got as far as constructing a table. -/
def producedTable (r : Except ScriptExit (List String)) : Bool :=
  match r with
  | Except.ok _ => true
  | Except.error _ => false

/-! ## Tenure (agent.py lines 55-59) -/

/-- `next((c for c in ['joindate', 'join_date', 'signup_date'] if c in df.columns), None)`. -/
def tenureDateCol (cols : List String) : Option String :=
  (["joindate", "join_date", "signup_date"]).find? (fun c => cols.contains c)

/-- `(today - df[date_col]).dt.days.clip(lower=0)` per cell, with
timestamps in integer time units, 86400 per day; `Timedelta.days`
floor-divides, `clip(lower=0)` takes the max with 0, and a missing
date stays missing. -/
def daysAsCustomer (today : ℤ) (dates : List (Option ℤ)) : List (Option ℤ) :=
  dates.map (fun d => d.map (fun v => max ((today - v).fdiv 86400) 0))

/-! ## RFM score (agent.py lines 62-71) -/

/-- `fillna(0)` then the raw values. -/
def fillna0 (xs : List (Option ℚ)) : List ℚ :=
  xs.map (fun x => x.getD 0)

/-- `np.nanmin` over a list without NaNs (after `fillna(0)` none remain). -/
def listMin : List ℚ → ℚ
  | [] => 0
  | [x] => x
  | x :: y :: t => min x (listMin (y :: t))

/-- `np.nanmax` over a list without NaNs. -/
def listMax : List ℚ → ℚ
  | [] => 0
  | [x] => x
  | x :: y :: t => max x (listMax (y :: t))

/-- `(x - np.nanmin(x)) / (np.nanmax(x) - np.nanmin(x) + 1e-8)` pointwise. -/
def minmaxNorm (xs : List ℚ) : List ℚ :=
  let lo := listMin xs
  let hi := listMax xs
  xs.map (fun x => (x - lo) / (hi - lo + 1 / 100000000))

/-- `np.round` to the nearest integer, ties to even (IEEE semantics of
`np.round`), on an exact rational. -/
def roundHalfEven (q : ℚ) : ℤ :=
  if q - ⌊q⌋ < 1 / 2 then ⌊q⌋
  else if 1 / 2 < q - ⌊q⌋ then ⌊q⌋ + 1
  else if Even ⌊q⌋ then ⌊q⌋ else ⌊q⌋ + 1

/-- `np.round(q, 1)`: one decimal place. -/
def round1 (q : ℚ) : ℚ :=
  (roundHalfEven (10 * q) : ℚ) / 10

/-- The `rfm_score` column: `monetary = annual_spend.fillna(0)`,
`frequency = orders.fillna(0)`, both min-max normalized, then
`np.round(100 * (0.6 * m_norm + 0.4 * f_norm), 1)`. -/
def rfmScore (orders annualSpend : List (Option ℚ)) : List ℚ :=
  let m := fillna0 annualSpend
  let f := fillna0 orders
  let mNorm := minmaxNorm m
  let fNorm := minmaxNorm f
  (mNorm.zip fNorm).map (fun p => round1 (100 * (6 / 10 * p.1 + 4 / 10 * p.2)))

/-! ## Age groups (agent.py lines 74-77)

`pd.cut(df['age'], bins=[0, 18, 25, 35, 45, 55, 999], labels=[...], right=False)`:
half-open intervals closed on the left; values outside all bins, and
missing values, get no bucket. -/

/-- The `age_group` cell for one `age` cell. -/
def ageGroup : Option ℚ → Option String
  | none => none
  | some x =>
    if 0 ≤ x ∧ x < 18 then some "<18"
    else if 18 ≤ x ∧ x < 25 then some "18-24"
    else if 25 ≤ x ∧ x < 35 then some "25-34"
    else if 35 ≤ x ∧ x < 45 then some "35-44"
    else if 45 ≤ x ∧ x < 55 then some "45-54"
    else if 55 ≤ x ∧ x < 999 then some "55+"
    else none

/-! ## Chart slots 5 and 6 (agent.py lines 124-151)

Both slots are an `if 'city' in df.columns: ... elif 'category' in
df.columns: ...` chain; the modelled value is which column the slot
renders from (`none` = slot left blank). -/

/-- The column slot 5 (bar chart) renders from. -/
def slot5Source (cols : List String) : Option String :=
  if "city" ∈ cols then some "city"
  else if "category" ∈ cols then some "category"
  else none

/-- The column slot 6 (pie chart) renders from. -/
def slot6Source (cols : List String) : Option String :=
  if "city" ∈ cols then some "city"
  else if "category" ∈ cols then some "category"
  else none

/-! ## The toy combat class (po.py) -/

/-- The `Po` object: `name`, `health`, `attack_power`. -/
structure Po where
  name : String
  health : ℤ
  attack_power : ℤ
  deriving DecidableEq, Repr

/-- `Po.__init__`: health 100, attack power 20. -/
def Po.init (name : String) : Po :=
  ⟨name, 100, 20⟩

/-- `attack`: `damage = random.randint(0, self.attack_power)` then
`target.health -= damage`.  The random draw is passed explicitly; the
result is the (attacker, target) pair after the call. -/
def Po.attack (self target : Po) (damage : ℤ) : Po × Po :=
  (self, { target with health := target.health - damage })

/-- `is_alive`: `self.health > 0`. -/
def Po.is_alive (self : Po) : Bool :=
  decide (0 < self.health)

/-! ## Helper lemmas -/

/-- A character kept by the regex filter lies in one of the three
code-point ranges. -/
theorem keepChar_ranges {c : Char} (h : keepChar c = true) :
    (97 ≤ c.toNat ∧ c.toNat ≤ 122) ∨ (48 ≤ c.toNat ∧ c.toNat ≤ 57) ∨ c.toNat = 95 := by
  have h' : (97 ≤ c.toNat ∧ c.toNat ≤ 122 ∨ 48 ≤ c.toNat ∧ c.toNat ≤ 57) ∨ c.toNat = 95 := by
    simpa [keepChar, Bool.or_eq_true, Bool.and_eq_true, decide_eq_true_eq] using h
  tauto

/-- Kept characters are not whitespace. -/
theorem keepChar_not_whitespace {c : Char} (h : keepChar c = true) :
    c.isWhitespace = false := by
  by_contra hw
  have hw' : c.isWhitespace = true := by
    cases hws : c.isWhitespace
    · exact absurd hws hw
    · rfl
  have : ((c = ' ' ∨ c = '\t') ∨ c = '\r') ∨ c = '\n' := by
    simpa [Char.isWhitespace, Bool.or_eq_true, decide_eq_true_eq] using hw'
  rcases this with ((rfl | rfl) | rfl) | rfl <;> exact absurd h (by decide)

/-- Kept characters are already lowercase. -/
theorem lowerChar_keep {c : Char} (h : keepChar c = true) : lowerChar c = c := by
  have hr := keepChar_ranges h
  have : ¬(65 ≤ c.toNat ∧ c.toNat ≤ 90) := by
    rcases hr with ⟨a, b⟩ | ⟨a, b⟩ | a <;> omega
  simp [lowerChar, this]

/-- Kept characters are not spaces. -/
theorem spaceToUnderscore_keep {c : Char} (h : keepChar c = true) :
    spaceToUnderscore c = c := by
  have hr := keepChar_ranges h
  have : ¬(c.toNat = 32) := by
    rcases hr with ⟨a, b⟩ | ⟨a, b⟩ | a <;> omega
  simp [spaceToUnderscore, this]

/-- dropWhile is the identity when no element satisfies the predicate. -/
theorem dropWhile_eq_self_of_all {α} {p : α → Bool} {l : List α}
    (h : ∀ c ∈ l, p c = false) : l.dropWhile p = l := by
  cases l with
  | nil => rfl
  | cons a t => simp [List.dropWhile_cons, h a (List.mem_cons_self a t)]

/-- Stripping is the identity on whitespace-free lists. -/
theorem trimChars_eq_self {l : List Char}
    (h : ∀ c ∈ l, Char.isWhitespace c = false) : trimChars l = l := by
  unfold trimChars
  rw [dropWhile_eq_self_of_all h,
    dropWhile_eq_self_of_all (fun c hc => h c (List.mem_reverse.mp hc)),
    List.reverse_reverse]

/-- map is the identity when the function fixes every element. -/
theorem map_eq_self_of {α} {f : α → α} {l : List α}
    (h : ∀ a ∈ l, f a = a) : l.map f = l := by
  induction l with
  | nil => rfl
  | cons a t ih =>
    simp only [List.map_cons, h a (List.mem_cons_self a t)]
    rw [ih (fun b hb => h b (List.mem_cons_of_mem a hb))]

/-- Label normalization fixes any list of kept characters. -/
theorem normalizeChars_fix {l : List Char}
    (h : ∀ c ∈ l, keepChar c = true) : normalizeChars l = l := by
  unfold normalizeChars
  rw [trimChars_eq_self (fun c hc => keepChar_not_whitespace (h c hc)),
    map_eq_self_of (fun c hc => lowerChar_keep (h c hc)),
    map_eq_self_of (fun c hc => spaceToUnderscore_keep (h c hc))]
  exact List.filter_eq_self.mpr h

/-- Every character surviving normalization is kept. -/
theorem normalizeChars_mem_keep {l : List Char} {c : Char}
    (h : c ∈ normalizeChars l) : keepChar c = true :=
  (List.mem_filter.mp h).2

/-- Branch of `roundHalfEven` below the half point. -/
theorem roundHalfEven_of_lt_half {q : ℚ} (h : q - ⌊q⌋ < 1 / 2) :
    roundHalfEven q = ⌊q⌋ := by
  unfold roundHalfEven
  rw [if_pos h]

/-- Branch of `roundHalfEven` above the half point. -/
theorem roundHalfEven_of_half_lt {q : ℚ} (h : 1 / 2 < q - ⌊q⌋) :
    roundHalfEven q = ⌊q⌋ + 1 := by
  unfold roundHalfEven
  rw [if_neg (by linarith), if_pos h]

/-- Rounding zero gives zero. -/
theorem round1_zero : round1 0 = 0 := by
  unfold round1
  rw [show (10 : ℚ) * 0 = 0 by ring,
    roundHalfEven_of_lt_half (by rw [Int.floor_zero]; norm_num), Int.floor_zero]
  simp

/-- Concrete value of the spend normalization on `[10, 30]`. -/
theorem minmaxNorm_example_spend :
    minmaxNorm (fillna0 [some 10, some 30]) = [0, 2000000000 / 2000000001] := by
  simp only [minmaxNorm, fillna0, listMin, listMax, List.map_cons, List.map_nil,
    Option.getD_some]
  norm_num [min_def, max_def]

/-- Concrete value of the orders normalization on `[1, 3]`. -/
theorem minmaxNorm_example_orders :
    minmaxNorm (fillna0 [some 1, some 3]) = [0, 200000000 / 200000001] := by
  simp only [minmaxNorm, fillna0, listMin, listMax, List.map_cons, List.map_nil,
    Option.getD_some]
  norm_num [min_def, max_def]

/-- listMin of a constant list. -/
theorem listMin_const {a : ℚ} : ∀ {xs : List ℚ}, xs ≠ [] → (∀ x ∈ xs, x = a) →
    listMin xs = a := by
  intro xs
  induction xs with
  | nil => intro h; exact absurd rfl h
  | cons x t ih =>
    intro _ h
    cases t with
    | nil => simpa [listMin] using h x (List.mem_cons_self x [])
    | cons y u =>
      have hx : x = a := h x (List.mem_cons_self x (y :: u))
      have ht : listMin (y :: u) = a :=
        ih (by simp) (fun z hz => h z (List.mem_cons_of_mem x hz))
      simp [listMin, hx, ht]

/-- listMax of a constant list. -/
theorem listMax_const {a : ℚ} : ∀ {xs : List ℚ}, xs ≠ [] → (∀ x ∈ xs, x = a) →
    listMax xs = a := by
  intro xs
  induction xs with
  | nil => intro h; exact absurd rfl h
  | cons x t ih =>
    intro _ h
    cases t with
    | nil => simpa [listMax] using h x (List.mem_cons_self x [])
    | cons y u =>
      have hx : x = a := h x (List.mem_cons_self x (y :: u))
      have ht : listMax (y :: u) = a :=
        ih (by simp) (fun z hz => h z (List.mem_cons_of_mem x hz))
      simp [listMax, hx, ht]

/-- listMin is a lower bound for members. -/
theorem listMin_le_mem : ∀ {xs : List ℚ} {x : ℚ}, x ∈ xs → listMin xs ≤ x := by
  intro xs
  induction xs with
  | nil => intro x h; cases h
  | cons a t ih =>
    intro x h
    cases t with
    | nil =>
      have : x = a := by simpa using h
      simp [listMin, this]
    | cons b u =>
      rcases List.mem_cons.mp h with rfl | h'
      · simp [listMin]
      · calc listMin (a :: b :: u) = min a (listMin (b :: u)) := by simp [listMin]
          _ ≤ listMin (b :: u) := min_le_right _ _
          _ ≤ x := ih h'

/-- listMax is an upper bound for members. -/
theorem le_listMax_mem : ∀ {xs : List ℚ} {x : ℚ}, x ∈ xs → x ≤ listMax xs := by
  intro xs
  induction xs with
  | nil => intro x h; cases h
  | cons a t ih =>
    intro x h
    cases t with
    | nil =>
      have : x = a := by simpa using h
      simp [listMax, this]
    | cons b u =>
      rcases List.mem_cons.mp h with rfl | h'
      · simp [listMax]
      · calc x ≤ listMax (b :: u) := ih h'
          _ ≤ max a (listMax (b :: u)) := le_max_right _ _
          _ = listMax (a :: b :: u) := by simp [listMax]

/-- All cells of a fillna over a constant column are that constant. -/
theorem fillna0_const {a : ℚ} {xs : List (Option ℚ)}
    (h : ∀ x ∈ xs, x = some a) : ∀ y ∈ fillna0 xs, y = a := by
  intro y hy
  simp only [fillna0, List.mem_map] at hy
  obtain ⟨d, hd, rfl⟩ := hy
  rw [h d hd]
  rfl

/-- Min-max normalization of a constant column is all zeros. -/
theorem minmaxNorm_const {a : ℚ} {xs : List ℚ}
    (h : ∀ x ∈ xs, x = a) : ∀ y ∈ minmaxNorm xs, y = 0 := by
  intro y hy
  simp only [minmaxNorm, List.mem_map] at hy
  obtain ⟨x, hx, rfl⟩ := hy
  have hlo : listMin xs = a := listMin_const (by rintro rfl; cases hx) h
  rw [h x hx, hlo, sub_self, zero_div]

/-- Every score over all-equal columns is zero (the shared content of
the all-equal claim and its witness). -/
theorem rfm_all_equal (a b : ℚ) (os as : List (Option ℚ))
    (hos : ∀ x ∈ os, x = some a) (has : ∀ x ∈ as, x = some b) :
    ∀ s ∈ rfmScore os as, s = 0 := by
  intro s hs
  simp only [rfmScore, List.mem_map] at hs
  obtain ⟨p, hp, rfl⟩ := hs
  obtain ⟨x, y⟩ := p
  have hxy := List.of_mem_zip hp
  have hx0 : x = 0 := minmaxNorm_const (fillna0_const has) x hxy.1
  have hy0 : y = 0 := minmaxNorm_const (fillna0_const hos) y hxy.2
  subst hx0
  subst hy0
  rw [show (100 : ℚ) * (6 / 10 * (0, (0 : ℚ)).1 + 4 / 10 * (0, (0 : ℚ)).2) = 0 by
    norm_num]
  exact round1_zero

/-- The min never exceeds the max. -/
theorem listMin_le_listMax : ∀ xs : List ℚ, listMin xs ≤ listMax xs := by
  intro xs
  cases xs with
  | nil => simp [listMin, listMax]
  | cons a t =>
    exact le_trans (listMin_le_mem (List.mem_cons_self a t))
      (le_listMax_mem (List.mem_cons_self a t))

/-- The normalization denominator is strictly positive. -/
theorem rfm_denom_pos (xs : List ℚ) :
    0 < listMax xs - listMin xs + 1 / 100000000 := by
  have := listMin_le_listMax xs
  linarith

/-- Every min-max normalized value lies in `[0, 1)`. -/
theorem minmaxNorm_bounds {xs : List ℚ} {y : ℚ}
    (h : y ∈ minmaxNorm xs) : 0 ≤ y ∧ y < 1 := by
  simp only [minmaxNorm, List.mem_map] at h
  obtain ⟨x, hx, rfl⟩ := h
  have h1 : listMin xs ≤ x := listMin_le_mem hx
  have h2 : x ≤ listMax xs := le_listMax_mem hx
  have hd : (0 : ℚ) < listMax xs - listMin xs + 1 / 100000000 := rfm_denom_pos xs
  constructor
  · exact div_nonneg (by linarith) (le_of_lt hd)
  · rw [div_lt_one hd]
    linarith

/-- Half-even rounding of a nonnegative value is nonnegative. -/
theorem roundHalfEven_nonneg {q : ℚ} (h : 0 ≤ q) : 0 ≤ roundHalfEven q := by
  have hf : (0 : ℤ) ≤ ⌊q⌋ := Int.floor_nonneg.mpr h
  unfold roundHalfEven
  split_ifs <;> omega

/-- Half-even rounding never exceeds the floor plus one. -/
theorem roundHalfEven_le (q : ℚ) : roundHalfEven q ≤ ⌊q⌋ + 1 := by
  unfold roundHalfEven
  split_ifs <;> omega

/-! ## Claim theorems -/

/-- C3: the column-label normalization (trim, lowercase, spaces to
underscores, strip characters outside `[a-z0-9_]`) is idempotent:
normalizing an already-normalized label returns it unchanged. -/
theorem c3_normalize_idempotent (s : String) :
    normalizeLabel (normalizeLabel s) = normalizeLabel s := by
  unfold normalizeLabel
  exact congrArg String.mk (normalizeChars_fix (fun c hc => normalizeChars_mem_keep hc))

/-- C1 counterexample: on `annual_spend = [10, 30]` the min-max
normalization with the `1e-8` term in the denominator does not produce
`[0, 1]` — the top value is `20 / (20 + 1e-8)`, strictly below 1 — so
the claimed `monetary_norm = [0, 1]` is false as stated. -/
theorem c1_norm_counterexample :
    minmaxNorm (fillna0 [some 10, some 30]) ≠ [0, 1] := by
  rw [minmaxNorm_example_spend]
  intro h
  have hb : (2000000000 : ℚ) / 2000000001 = 1 := by
    simpa using congrArg (fun l => l.getD 1 0) h
  norm_num at hb

/-- C1 amended: for `orders = [1, 3]`, `annual_spend = [10, 30]` the
derivation produces `monetary_norm = [0, 2000000000/2000000001]`,
`frequency_norm = [0, 200000000/200000001]` (each strictly below 1 by
less than `5e-9` because of the `1e-8` in the denominator), and
`rfm_score = [0.0, 100.0]` exactly after rounding to one decimal. -/
theorem c1_rfm_example :
    minmaxNorm (fillna0 [some 10, some 30]) = [0, 2000000000 / 2000000001] ∧
    minmaxNorm (fillna0 [some 1, some 3]) = [0, 200000000 / 200000001] ∧
    rfmScore [some 1, some 3] [some 10, some 30] = [0, 100] := by
  refine ⟨minmaxNorm_example_spend, minmaxNorm_example_orders, ?_⟩
  have s1 : round1 (100 * (6 / 10 * (0 : ℚ) + 4 / 10 * 0)) = 0 := by
    rw [show (100 : ℚ) * (6 / 10 * 0 + 4 / 10 * 0) = 0 by ring]
    exact round1_zero
  have s2 : round1 (100 * (6 / 10 * ((2000000000 : ℚ) / 2000000001) +
      4 / 10 * (200000000 / 200000001))) = 100 := by
    unfold round1
    have hf : ⌊(10 : ℚ) * (100 * (6 / 10 * ((2000000000 : ℚ) / 2000000001) +
        4 / 10 * (200000000 / 200000001)))⌋ = 999 := by
      rw [Int.floor_eq_iff]
      norm_num
    rw [roundHalfEven_of_half_lt (by rw [hf]; norm_num), hf]
    norm_num
  simp only [rfmScore]
  rw [minmaxNorm_example_spend, minmaxNorm_example_orders]
  simp only [List.zip_cons_cons, List.zip_nil_left, List.map_cons, List.map_nil]
  rw [s1, s2]

/-- C4: age bucketing uses half-open intervals closed on the left:
age 17 gets bucket `<18`, age 18 gets `18-24`, while age 999, any age
outside `[0, 999)`, and a missing age get no bucket. -/
theorem c4_age_buckets :
    ageGroup (some 17) = some "<18" ∧
    ageGroup (some 18) = some "18-24" ∧
    ageGroup (some 999) = none ∧
    ageGroup none = none ∧
    (∀ x : ℚ, x < 0 ∨ 999 ≤ x → ageGroup (some x) = none) := by
  refine ⟨by decide, by decide, by decide, rfl, ?_⟩
  intro x hx
  have h1 : ¬(0 ≤ x ∧ x < 18) := fun ⟨a, b⟩ => by rcases hx with h | h <;> linarith
  have h2 : ¬(18 ≤ x ∧ x < 25) := fun ⟨a, b⟩ => by rcases hx with h | h <;> linarith
  have h3 : ¬(25 ≤ x ∧ x < 35) := fun ⟨a, b⟩ => by rcases hx with h | h <;> linarith
  have h4 : ¬(35 ≤ x ∧ x < 45) := fun ⟨a, b⟩ => by rcases hx with h | h <;> linarith
  have h5 : ¬(45 ≤ x ∧ x < 55) := fun ⟨a, b⟩ => by rcases hx with h | h <;> linarith
  have h6 : ¬(55 ≤ x ∧ x < 999) := fun ⟨a, b⟩ => by rcases hx with h | h <;> linarith
  simp [ageGroup, h1, h2, h3, h4, h5, h6]

/-- C4 witness: the out-of-range clause of the bucketing theorem,
instantiated at age `-1`. -/
theorem c4_age_buckets_witness : ageGroup (some (-1)) = none :=
  c4_age_buckets.2.2.2.2 (-1) (Or.inl (by norm_num))

/-- C5: when the input file is missing, the run ends in the fatal exit
that prints the not-found line and the expected-columns line, its exit
code 1 is non-zero, and no table is produced (no later stage runs). -/
theorem c5_missing_file :
    runScript none = Except.error ⟨[notFoundMsg, expectedColumnsMsg], 1⟩ ∧
    0 < (ScriptExit.mk [notFoundMsg, expectedColumnsMsg] 1).code ∧
    producedTable (runScript none) = false :=
  ⟨rfl, Nat.zero_lt_one, rfl⟩

/-- C6: when both `city` and `category` are present, chart slots 5 and 6
both render from `city` and never from `category`. -/
theorem c6_city_precedence (cols : List String)
    (hcity : "city" ∈ cols) (hcat : "category" ∈ cols) :
    slot5Source cols = some "city" ∧ slot6Source cols = some "city" ∧
    slot5Source cols ≠ some "category" ∧ slot6Source cols ≠ some "category" := by
  have h5 : slot5Source cols = some "city" := by simp [slot5Source, hcity]
  have h6 : slot6Source cols = some "city" := by simp [slot6Source, hcity]
  refine ⟨h5, h6, ?_, ?_⟩
  · rw [h5]; intro h; exact absurd (Option.some.inj h) (by decide)
  · rw [h6]; intro h; exact absurd (Option.some.inj h) (by decide)

/-- C6 witness: the precedence theorem at the concrete column set
containing both `city` and `category`. -/
theorem c6_city_precedence_witness :
    slot5Source ["city", "category"] = some "city" ∧
    slot6Source ["city", "category"] = some "city" ∧
    slot5Source ["city", "category"] ≠ some "category" ∧
    slot6Source ["city", "category"] ≠ some "category" :=
  c6_city_precedence ["city", "category"] (by decide) (by decide)

/-- C10: an attack with a damage draw in `randint`'s inclusive range
`[0, attack_power]` lowers the target's health by exactly that draw,
leaves the attacker and the target's name and attack power unchanged,
`is_alive` holds exactly when health is strictly positive, and the
resulting health can go negative (no clamping). -/
theorem c10_po_attack (a t : Po) (d : ℤ) (h0 : 0 ≤ d) (h1 : d ≤ a.attack_power) :
    (a.attack t d).1 = a ∧
    (a.attack t d).2.health = t.health - d ∧
    (a.attack t d).2.name = t.name ∧
    (a.attack t d).2.attack_power = t.attack_power ∧
    ((a.attack t d).2.is_alive = true ↔ 0 < (a.attack t d).2.health) ∧
    ((Po.init "A").attack ⟨"B", 10, 20⟩ 20).2.health < 0 := by
  refine ⟨rfl, rfl, rfl, rfl, ?_, by decide⟩
  simp [Po.is_alive, Po.attack]

/-- C10 witness: two fresh fighters and a damage draw of 5. -/
theorem c10_po_attack_witness :
    ((Po.init "A").attack (Po.init "B") 5).1 = Po.init "A" ∧
    ((Po.init "A").attack (Po.init "B") 5).2.health = (Po.init "B").health - 5 ∧
    ((Po.init "A").attack (Po.init "B") 5).2.name = (Po.init "B").name ∧
    ((Po.init "A").attack (Po.init "B") 5).2.attack_power = (Po.init "B").attack_power ∧
    (((Po.init "A").attack (Po.init "B") 5).2.is_alive = true ↔
      0 < ((Po.init "A").attack (Po.init "B") 5).2.health) ∧
    ((Po.init "A").attack ⟨"B", 10, 20⟩ 20).2.health < 0 :=
  c10_po_attack (Po.init "A") (Po.init "B") 5 (by decide) (by decide)

/-- Concrete one-row score used by witnesses. -/
theorem rfmScore_single : rfmScore [some 1] [some 2] = [0] := by
  have hall := rfm_all_equal 1 2 [some 1] [some 2] (by simp) (by simp)
  have hlen : (rfmScore [some 1] [some 2]).length = 1 := rfl
  cases hl : rfmScore [some 1] [some 2] with
  | nil => rw [hl] at hlen; exact absurd hlen (by simp)
  | cons e t =>
    rw [hl] at hlen
    simp only [List.length_cons] at hlen
    have ht : t = [] := List.length_eq_zero.mp (by omega)
    have he : e = 0 := hall e (by rw [hl]; exact List.mem_cons_self e t)
    rw [he, ht]

/-- C2: when every `orders` cell is one constant and every
`annual_spend` cell is another, both normalization denominators are
nonzero (the `1e-8` term prevents division by zero) and every row's
`rfm_score` equals 0.0. -/
theorem c2_all_equal_rfm_zero (a b : ℚ) (os as : List (Option ℚ))
    (hos : ∀ x ∈ os, x = some a) (has : ∀ x ∈ as, x = some b) :
    listMax (fillna0 as) - listMin (fillna0 as) + 1 / 100000000 ≠ 0 ∧
    listMax (fillna0 os) - listMin (fillna0 os) + 1 / 100000000 ≠ 0 ∧
    (∀ s ∈ rfmScore os as, s = 0) :=
  ⟨ne_of_gt (rfm_denom_pos (fillna0 as)), ne_of_gt (rfm_denom_pos (fillna0 os)),
    rfm_all_equal a b os as hos has⟩

/-- C2 witness: the all-equal theorem at one row with `orders = 1`,
`annual_spend = 2`, projected to its score at the concrete row. -/
theorem c2_all_equal_rfm_zero_witness :
    listMax (fillna0 [some (2 : ℚ)]) - listMin (fillna0 [some (2 : ℚ)]) +
      1 / 100000000 ≠ 0 :=
  (c2_all_equal_rfm_zero 1 2 [some 1] [some 2] (by simp) (by simp)).1

/-- C7: the tenure derivation picks the first of `joindate`,
`join_date`, `signup_date` present, in that priority order, and every
computed `days_as_customer` value is at least 0 (the clip at 0 after
whole-day floor division). -/
theorem c7_tenure (cols : List String) (today : ℤ) (dates : List (Option ℤ)) :
    ("joindate" ∈ cols → tenureDateCol cols = some "joindate") ∧
    ("joindate" ∉ cols → "join_date" ∈ cols →
      tenureDateCol cols = some "join_date") ∧
    ("joindate" ∉ cols → "join_date" ∉ cols → "signup_date" ∈ cols →
      tenureDateCol cols = some "signup_date") ∧
    (∀ v : ℤ, some v ∈ daysAsCustomer today dates → 0 ≤ v) := by
  refine ⟨?_, ?_, ?_, ?_⟩
  · intro h1
    simp [tenureDateCol, List.find?_cons, h1]
  · intro h1 h2
    simp [tenureDateCol, List.find?_cons, h1, h2]
  · intro h1 h2 h3
    simp [tenureDateCol, List.find?_cons, h1, h2, h3]
  · intro v hv
    simp only [daysAsCustomer, List.mem_map] at hv
    obtain ⟨d, hd, hdv⟩ := hv
    cases d with
    | none => simp at hdv
    | some w =>
      have hv' : max ((today - w).fdiv 86400) 0 = v := by
        simpa using hdv
      rw [← hv']
      exact le_max_right _ _

/-- C7 witness: a table with only `join_date`, and a date one day in
the future of `today = 0`, whose clipped tenure is 0. -/
theorem c7_tenure_witness :
    tenureDateCol ["join_date"] = some "join_date" ∧ (0 : ℤ) ≤ 0 :=
  ⟨(c7_tenure ["join_date"] 0 [some 86400]).2.1 (by decide) (by decide),
    (c7_tenure ["join_date"] 0 [some 86400]).2.2.2 0 (by decide)⟩

/-- C9: every derived `rfm_score` value lies in `[0, 100]`: each
normalized value lies in `[0, 1)`, the weighted blend times 100 lies in
`[0, 100)`, and rounding to one decimal keeps the value in `[0, 100]`. -/
theorem c9_rfm_range {os as : List (Option ℚ)} {s : ℚ}
    (h : s ∈ rfmScore os as) : 0 ≤ s ∧ s ≤ 100 := by
  simp only [rfmScore, List.mem_map] at h
  obtain ⟨p, hp, rfl⟩ := h
  obtain ⟨x, y⟩ := p
  have hxy := List.of_mem_zip hp
  have hx := minmaxNorm_bounds hxy.1
  have hy := minmaxNorm_bounds hxy.2
  have hq0 : 0 ≤ 100 * (6 / 10 * (x, y).1 + 4 / 10 * (x, y).2) := by
    simp only
    nlinarith [hx.1, hy.1]
  have hq1 : 100 * (6 / 10 * (x, y).1 + 4 / 10 * (x, y).2) < 100 := by
    simp only
    nlinarith [hx.2, hy.2, hx.1, hy.1]
  unfold round1
  set q := 100 * (6 / 10 * (x, y).1 + 4 / 10 * (x, y).2) with hqdef
  have h10 : 0 ≤ 10 * q := by linarith
  have hrh0 : 0 ≤ roundHalfEven (10 * q) := roundHalfEven_nonneg h10
  have hfl : ⌊10 * q⌋ < 1000 := Int.floor_lt.mpr (by push_cast; linarith)
  have hrh1 : roundHalfEven (10 * q) ≤ 1000 :=
    le_trans (roundHalfEven_le (10 * q)) (by omega)
  constructor
  · positivity
  · rw [div_le_iff₀ (by norm_num : (0 : ℚ) < 10)]
    calc (roundHalfEven (10 * q) : ℚ) ≤ (1000 : ℤ) := by exact_mod_cast hrh1
      _ = 100 * 10 := by norm_num

/-- C9 witness: the range theorem at the one-row table
`orders = [1]`, `annual_spend = [2]`, whose single score is 0. -/
theorem c9_rfm_range_witness : 0 ≤ (0 : ℚ) ∧ (0 : ℚ) ≤ 100 :=
  c9_rfm_range (by rw [rfmScore_single]; exact List.mem_singleton.mpr rfl)

/-- C8: each derived column is added exactly when its required source
columns are present after normalization (the disjunct for the column
already being in the input accounts for adversarial inputs that ship a
column of that name); otherwise the derivation is skipped and the
column stays absent.  The monetary, frequency and rfm_score columns are
added together under one guard, so no partial computation occurs. -/
theorem c8_derived_presence (cols : List String) :
    ("days_as_customer" ∈ featureCols cols ↔
      ("days_as_customer" ∈ cols ∨
        ("joindate" ∈ cols ∨ "join_date" ∈ cols ∨ "signup_date" ∈ cols))) ∧
    ("monetary" ∈ featureCols cols ↔
      ("monetary" ∈ cols ∨ ("orders" ∈ cols ∧ "annual_spend" ∈ cols))) ∧
    ("frequency" ∈ featureCols cols ↔
      ("frequency" ∈ cols ∨ ("orders" ∈ cols ∧ "annual_spend" ∈ cols))) ∧
    ("rfm_score" ∈ featureCols cols ↔
      ("rfm_score" ∈ cols ∨ ("orders" ∈ cols ∧ "annual_spend" ∈ cols))) ∧
    ("age_group" ∈ featureCols cols ↔
      ("age_group" ∈ cols ∨ "age" ∈ cols)) := by
  simp only [featureCols]
  split_ifs with h1 h2 h3 <;>
    simp_all [List.mem_append, List.mem_cons, List.not_mem_nil]

end Agent
